import Mathlib

/-!
Verification of SCF-core properties of the ExaChem electronic-structure code.

The definitions below are shallow embeddings of the C++ routines in
src/exachem/scf/scf_guess.cpp and src/exachem/common/system_data.hpp.
Machine doubles that only ever hold exact small integer or rational values
are modelled by ℤ / ℚ; external collaborators (the libint2 integral engine,
Eigen/LAPACK dense linear algebra) are abstract function parameters.
-/

/- ===================== C9: atomic occupation vectors =====================
   scf_guess.cpp lines 21-26 (subshell_occvec) and 31-93
   (compute_ao_occupation_vector). -/

/-- Model of scf_guess::subshell_occvec (scf_guess.cpp lines 21-26):
allocates at most 2*size electrons out of ne into the subshell accumulator occ,
returning the new accumulator value and the remaining electron count.
The C++ occvec entries are doubles holding exact integers, so ℤ is exact. -/
def subshell_occvec (occ : ℤ) (size : ℤ) (ne : ℤ) : ℤ × ℤ :=
  let ne_alloc := if 2 * size < ne then 2 * size else ne
  (occ + ne_alloc, ne - ne_alloc)

/-- Result of compute_ao_occupation_vector: the four subshell occupations
(s, p, d, f) and a flag recording that every explicit size_t subtraction
performed on num_of_electrons stayed nonnegative (so the ℤ model agrees
with the C++ size_t arithmetic, which would otherwise wrap). -/
structure OccVec where
  o0 : ℤ
  o1 : ℤ
  o2 : ℤ
  o3 : ℤ
  ok : Bool
deriving DecidableEq

/-- Model of scf_guess::compute_ao_occupation_vector (scf_guess.cpp lines 31-93):
the NIST ground-state electron configuration of a neutral atom of atomic
number Z, smeared into s/p/d/f subshell totals, with literal irregular
single-occupation exceptions for specific atomic numbers. -/
def compute_ao_occupation_vector (Z : ℕ) : OccVec :=
  let ne : ℤ := (Z : ℤ)
  let r1s := subshell_occvec 0 1 ne                        -- 1s
  let o0 := r1s.1
  let ne := r1s.2
  let (o0, o1, ne) :=
    if 2 < Z then
      let a := subshell_occvec o0 1 ne                     -- 2s
      let b := subshell_occvec 0 3 a.2                     -- 2p
      (a.1, b.1, b.2)
    else (o0, (0 : ℤ), ne)
  let (o0, o1, ne) :=
    if 10 < Z then
      let a := subshell_occvec o0 1 ne                     -- 3s
      let b := subshell_occvec o1 3 a.2                    -- 3p
      (a.1, b.1, b.2)
    else (o0, o1, ne)
  let (o0, o1, o2, ne, ok) :=
    if 18 < Z then
      -- NB 4s is singly occupied in K, Cr, and Cu
      let n4s : ℤ := if Z = 19 ∨ Z = 24 ∨ Z = 29 then 1 else 2
      let ne' := ne - n4s
      let a := subshell_occvec o0 1 n4s                    -- 4s
      let b := subshell_occvec 0 5 ne'                     -- 3d
      let c := subshell_occvec o1 3 b.2                    -- 4p
      (a.1, c.1, b.1, c.2, decide (0 ≤ ne'))
    else (o0, o1, (0 : ℤ), ne, true)
  let (o0, o1, o2, ne, ok) :=
    if 36 < Z then
      -- NB 5s is singly occupied in Rb, Nb, Mo, Ru, Rh, and Ag; empty in Pd
      let n5s : ℤ :=
        if Z = 37 ∨ Z = 41 ∨ Z = 42 ∨ Z = 44 ∨ Z = 45 ∨ Z = 47 then 1
        else if Z = 46 then 0 else 2
      let ne' := ne - n5s
      let a := subshell_occvec o0 1 n5s                    -- 5s
      let b := subshell_occvec o2 5 ne'                    -- 4d
      let c := subshell_occvec o1 3 b.2                    -- 5p
      (a.1, c.1, b.1, c.2, ok && decide (0 ≤ ne'))
    else (o0, o1, o2, ne, ok)
  let (o0, o1, o2, o3, ne, ok) :=
    if 54 < Z then
      let n6s : ℤ := if Z = 55 ∨ Z = 78 ∨ Z = 79 then 1 else 2
      let ne1 := ne - n6s
      let a := subshell_occvec o0 1 n6s                    -- 6s
      let n5d : ℤ := if Z = 57 ∨ Z = 58 ∨ Z = 64 then 1 else 0
      let ne2 := ne1 - n5d
      let b := subshell_occvec o2 5 n5d                    -- 5d (Lanthanides)
      let c := subshell_occvec 0 7 ne2                     -- 4f
      let d := subshell_occvec b.1 5 c.2                   -- 5d
      let e := subshell_occvec o1 3 d.2                    -- 6p
      (a.1, e.1, d.1, c.1, e.2, ok && decide (0 ≤ ne1) && decide (0 ≤ ne2))
    else (o0, o1, o2, (0 : ℤ), ne, ok)
  let (o0, o1, o2, o3, _ne, ok) :=
    if 86 < Z then
      let a := subshell_occvec o0 1 ne                     -- 7s
      let n6d : ℤ :=
        if Z = 89 ∨ Z = 91 ∨ Z = 92 ∨ Z = 93 ∨ Z = 96 then 1
        else if Z = 90 then 2 else 0
      let ne1 := a.2 - n6d
      let b := subshell_occvec o2 5 n6d                    -- 6d (Actinides)
      let c := subshell_occvec o3 7 ne1                    -- 5f
      let n7p : ℤ := if Z = 103 then 1 else 0
      let ne2 := c.2 - n7p
      let d := subshell_occvec o1 3 n7p                    -- 7p (Lawrencium)
      let e := subshell_occvec b.1 5 ne2                   -- 6d
      let f := subshell_occvec d.1 3 e.2                   -- 7p
      (a.1, f.1, e.1, c.1, f.2, ok && decide (0 ≤ ne1) && decide (0 ≤ ne2))
    else (o0, o1, o2, o3, ne, ok)
  ⟨o0, o1, o2, o3, ok⟩

/-- C9: for every atomic number Z from 1 to 118 the four-component occupation
vector returned by compute_ao_occupation_vector sums exactly to Z (all size_t
subtractions staying in range), and for Z = 2 (helium) the returned occupation
vector is [2, 0, 0, 0]. -/
theorem occupation_vector_sums_to_Z :
    (∀ z : ℕ, z ≤ 118 → 1 ≤ z →
      (compute_ao_occupation_vector z).ok = true ∧
      (compute_ao_occupation_vector z).o0 + (compute_ao_occupation_vector z).o1 +
        (compute_ao_occupation_vector z).o2 + (compute_ao_occupation_vector z).o3 = (z : ℤ)) ∧
    compute_ao_occupation_vector 2 = ⟨2, 0, 0, 0, true⟩ := by
  constructor
  · decide
  · rfl

/-- Witness for C9: the theorem applied at helium (Z = 2). -/
theorem occupation_vector_sums_to_Z_witness :
    (2 : ℕ) ≤ 118 ∧ (1 : ℕ) ≤ 2 ∧
      ((compute_ao_occupation_vector 2).ok = true ∧
        (compute_ao_occupation_vector 2).o0 + (compute_ao_occupation_vector 2).o1 +
          (compute_ao_occupation_vector 2).o2 + (compute_ao_occupation_vector 2).o3 = (2 : ℤ)) :=
  ⟨by decide, by decide, occupation_vector_sums_to_Z.1 2 (by decide) (by decide)⟩

/- ===================== C8: ECP compatibility check =====================
   scf_guess.cpp lines 985-998 in compute_sad_guess. -/

/-- Model of the lookup at scf_guess.cpp line 989:
std::distance(nelecp.begin(), std::find(nelecp.begin(), nelecp.end(), ncore))
is the index of the first occurrence of ncore in nelecp, or nelecp.size()
when ncore does not occur. -/
def ecp_type_index (nelecp : List ℕ) (ncore : ℕ) : ℕ :=
  nelecp.findIdx (fun x => x == ncore)

/-- Model of the guard at scf_guess.cpp line 990: tamm_terminate with
message about an incompatible ECP type is called iff index > nelecp.size(). -/
def ecp_terminate_condition (nelecp : List ℕ) (ncore : ℕ) : Bool :=
  decide (nelecp.length < ecp_type_index nelecp ncore)

/-- C8: the fatal configuration-error branch is unreachable: the lookup index
is at most nelecp.size(), so index > nelecp.size() never holds — even for an
unsupported core-electron count, where the index equals nelecp.size() and the
guess construction continues (into an out-of-bounds access) instead of
aborting with the descriptive message. -/
theorem ecp_terminate_unreachable :
    ∀ (nelecp : List ℕ) (ncore : ℕ),
      ecp_terminate_condition nelecp ncore = false ∧
      (ncore ∉ nelecp → ecp_type_index nelecp ncore = nelecp.length) := by
  intro l n
  constructor
  · simp only [ecp_terminate_condition, decide_eq_false_iff_not, not_lt, ecp_type_index]
    exact List.findIdx_le_length _
  · intro hnot
    unfold ecp_type_index
    rw [List.findIdx_eq_length]
    intro x hx
    rw [beq_eq_false_iff_ne]
    exact fun hcontra => hnot (hcontra ▸ hx)

/-- Witness for C8: with supported core counts [2, 10, 18] and an atom
declaring 3 core electrons (not supported), the terminate guard still
evaluates to false and the index runs off the end of the table. -/
theorem ecp_terminate_unreachable_witness :
    ecp_terminate_condition [2, 10, 18] 3 = false ∧
      ((3 : ℕ) ∉ ([2, 10, 18] : List ℕ) ∧ ecp_type_index [2, 10, 18] 3 = 3) :=
  ⟨(ecp_terminate_unreachable [2, 10, 18] 3).1,
    by decide, (ecp_terminate_unreachable [2, 10, 18] 3).2 (by decide)⟩

/- ===================== C3: tile-size heuristic =====================
   system_data.hpp lines 322-340 (recompute_tilesize) and
   scf_guess.cpp lines 1072-1074 (per-atom tiling in compute_sad_guess). -/

/-- Model of SCFCompute::recompute_tilesize (system_data.hpp lines 322-340):
reset the tile size to ceil(0.05*N) when the user supplied no tile size in
the input and the current tile size is below 5 percent of the basis size N.
The double constant 0.05 is modelled as the rational 5/100. -/
def recompute_tilesize (tile_size : ℕ) (N : ℕ) (user_ts : Bool) : ℕ :=
  if (tile_size : ℚ) < (N : ℚ) * (5 / 100) ∧ user_ts = false then ⌈(N : ℚ) * (5 / 100)⌉₊
  else tile_size

/-- Model of the per-atom tile-size adjustment inside compute_sad_guess
(scf_guess.cpp lines 1072-1074): tile_size_atom is floored at
ceil(0.05*nao_atom) without consulting whether the user supplied a tile
size. -/
def sad_tile_size_atom (ao_tilesize : ℕ) (nao_atom : ℕ) : ℕ :=
  if (ao_tilesize : ℚ) < (nao_atom : ℚ) * (5 / 100) then ⌈(nao_atom : ℚ) * (5 / 100)⌉₊
  else ao_tilesize

/-- C3 counterexample: with a user-supplied tile size of 1 and a 30-function
atomic basis, the claimed rule (adjust only when the user supplied no tile
size) predicts the per-atom tile size stays 1, but the per-atom tiling in the
SAD guess resets it to 2: the user-gated rule does not govern the per-atom
tiling. -/
theorem tilesize_heuristic_counterexample :
    sad_tile_size_atom 1 30 ≠ recompute_tilesize 1 30 true ∧
      sad_tile_size_atom 1 30 = 2 ∧ recompute_tilesize 1 30 true = 1 := by
  have hsad : sad_tile_size_atom 1 30 = 2 := by
    rw [sad_tile_size_atom, if_pos (by norm_num),
      show ((30 : ℕ) : ℚ) * (5 / 100) = 3 / 2 by norm_num, Nat.ceil_eq_iff (by norm_num)]
    norm_num
  have hrec : recompute_tilesize 1 30 true = 1 := by
    rw [recompute_tilesize, if_neg]
    simp
  exact ⟨by rw [hsad, hrec]; norm_num, hsad, hrec⟩

/-- C3 amended: recompute_tilesize resets the tile size to exactly
ceil(0.05*N) iff the user supplied no tile size and the current tile size is
below 5 percent of N, and returns it unchanged in every other case; a
non-user tile size therefore ends at least 5 percent of N, and re-applying
the adjustment is a no-op (it is one-time). The per-atom tiling inside the
SAD guess floors the tile size at exactly ceil(0.05*nao_atom) iff it is
below 5 percent of the atomic basis size — unconditionally on any
user-supplied tile size — returning it unchanged otherwise, with the same
lower bound and idempotence. -/
theorem tilesize_heuristic_amended (ts N : ℕ) (u_ts : Bool) (ao nao : ℕ) :
    ((ts : ℚ) < (N : ℚ) * (5 / 100) ∧ u_ts = false →
      recompute_tilesize ts N u_ts = ⌈(N : ℚ) * (5 / 100)⌉₊) ∧
    (¬((ts : ℚ) < (N : ℚ) * (5 / 100) ∧ u_ts = false) →
      recompute_tilesize ts N u_ts = ts) ∧
    (u_ts = true → recompute_tilesize ts N u_ts = ts) ∧
    (u_ts = false → (N : ℚ) * (5 / 100) ≤ (recompute_tilesize ts N u_ts : ℚ)) ∧
    recompute_tilesize (recompute_tilesize ts N u_ts) N u_ts = recompute_tilesize ts N u_ts ∧
    ((ao : ℚ) < (nao : ℚ) * (5 / 100) →
      sad_tile_size_atom ao nao = ⌈(nao : ℚ) * (5 / 100)⌉₊) ∧
    ((nao : ℚ) * (5 / 100) ≤ (ao : ℚ) → sad_tile_size_atom ao nao = ao) ∧
    (nao : ℚ) * (5 / 100) ≤ (sad_tile_size_atom ao nao : ℚ) ∧
    sad_tile_size_atom (sad_tile_size_atom ao nao) nao = sad_tile_size_atom ao nao := by
  refine ⟨fun h => if_pos h, fun h => if_neg h, ?_, ?_, ?_,
    fun h => if_pos h, fun h => if_neg (not_lt.mpr h), ?_, ?_⟩
  · intro hu
    simp [recompute_tilesize, hu]
  · intro hu
    subst hu
    by_cases h : (ts : ℚ) < (N : ℚ) * (5 / 100)
    · simp only [recompute_tilesize, h, and_self, if_pos, true_and]
      exact le_trans (Nat.le_ceil _) (by norm_num)
    · simp only [recompute_tilesize, h, false_and, if_neg, not_false_iff]
      exact le_of_not_lt h
  · by_cases h : (ts : ℚ) < (N : ℚ) * (5 / 100) ∧ u_ts = false
    · have h1 : recompute_tilesize ts N u_ts = ⌈(N : ℚ) * (5 / 100)⌉₊ := if_pos h
      rw [h1, recompute_tilesize, if_neg]
      rintro ⟨hlt, -⟩
      exact absurd (Nat.le_ceil ((N : ℚ) * (5 / 100))) (not_le.mpr hlt)
    · have h1 : recompute_tilesize ts N u_ts = ts := if_neg h
      rw [h1]
      exact h1
  · by_cases h : (ao : ℚ) < (nao : ℚ) * (5 / 100)
    · rw [sad_tile_size_atom, if_pos h]
      exact Nat.le_ceil _
    · rw [sad_tile_size_atom, if_neg h]
      exact le_of_not_lt h
  · by_cases h : (ao : ℚ) < (nao : ℚ) * (5 / 100)
    · rw [show sad_tile_size_atom ao nao = ⌈(nao : ℚ) * (5 / 100)⌉₊ from if_pos h,
        sad_tile_size_atom, if_neg]
      exact fun hlt => absurd (Nat.le_ceil ((nao : ℚ) * (5 / 100))) (not_le.mpr hlt)
    · rw [show sad_tile_size_atom ao nao = ao from if_neg h]
      exact if_neg h

/-- Witness for C3: the amended theorem applied at basis size 30, exercising
the reset case (tile size 1, no user tile size), both unchanged cases (tile
size 2 at or above the 5 percent mark; user-supplied tile size 1), the lower
bound, and both SAD cases. -/
theorem tilesize_heuristic_amended_witness :
    recompute_tilesize 1 30 false = ⌈((30 : ℕ) : ℚ) * (5 / 100)⌉₊ ∧
      recompute_tilesize 2 30 false = 2 ∧
      recompute_tilesize 1 30 true = 1 ∧
      ((30 : ℕ) : ℚ) * (5 / 100) ≤ (recompute_tilesize 1 30 false : ℚ) ∧
      sad_tile_size_atom 1 30 = ⌈((30 : ℕ) : ℚ) * (5 / 100)⌉₊ ∧
      sad_tile_size_atom 2 30 = 2 :=
  ⟨(tilesize_heuristic_amended 1 30 false 1 30).1 ⟨by norm_num, rfl⟩,
    (tilesize_heuristic_amended 2 30 false 1 30).2.1 (by
      rintro ⟨h, -⟩
      norm_num at h),
    (tilesize_heuristic_amended 1 30 true 1 30).2.2.1 rfl,
    (tilesize_heuristic_amended 1 30 false 1 30).2.2.2.1 rfl,
    (tilesize_heuristic_amended 1 30 false 1 30).2.2.2.2.2.1 (by norm_num),
    (tilesize_heuristic_amended 1 30 false 2 30).2.2.2.2.2.2.1 (by norm_num)⟩

/- ===================== C1 and C6: scf_diagonalize =====================
   scf_guess.cpp lines 587-888 (SCFGuess::scf_diagonalize). -/

/-- Level-shift iteration state: SCFVars.lshift and the sticky flag
SCFVars.lshift_reset. -/
structure LshiftState where
  lshift : ℚ
  lshift_reset : Bool
deriving DecidableEq

/-- Per-call inputs of scf_diagonalize relevant to the HOMO-LUMO gap and the
level-shift latch: whether the user requested an explicit positive shift
(chem_env.ioptions.scf_options.lshift > 0), the unrestricted-reference flag,
the eigenvalues produced by this call's diagonalizations, and the
occupied-orbital counts nelectrons_alpha / nelectrons_beta. -/
structure DiagInput where
  userLshiftPos : Bool
  isUhf : Bool
  epsA : ℕ → ℚ
  epsB : ℕ → ℚ
  nA : ℕ
  nB : ℕ

/-- hl_gap as assembled by scf_diagonalize (scf_guess.cpp lines 610, 848-849,
870-872; the ScaLAPACK path at lines 724-725, 817-819 performs the same
assignments): initialized to 0; set to the alpha-channel gap only when the
latch has not fired; min-combined with the beta-channel gap for unrestricted
references, again only when the latch has not fired. -/
def hl_gap_channels (inp : DiagInput) (s : LshiftState) : ℚ :=
  let g0 : ℚ := 0
  let g1 := if s.lshift_reset = false then inp.epsA inp.nA - inp.epsA (inp.nA - 1) else g0
  if inp.isUhf = true ∧ s.lshift_reset = false then
    min g1 (inp.epsB inp.nB - inp.epsB (inp.nB - 1))
  else g1

/-- The tail of scf_diagonalize (scf_guess.cpp lines 877-887): subtract the
current level shift from the gap; then, only when the latch has not fired,
fire it if the gap is below 0.01 Hartree and the user did not request an
explicit positive shift, fixing lshift at 0.5 and setting lshift_reset.
Returns the updated state and the (shift-subtracted) gap. -/
def scf_diagonalize_step (inp : DiagInput) (s : LshiftState) : LshiftState × ℚ :=
  let hl := hl_gap_channels inp s - s.lshift
  if s.lshift_reset = false ∧ hl < 1 / 100 ∧ inp.userLshiftPos = false then
    (⟨1 / 2, true⟩, hl)
  else (s, hl)

/-- A run: scf_diagonalize is called once per SCF iteration, threading the
SCFVars level-shift state through. -/
def scf_run (inps : List DiagInput) (s : LshiftState) : LshiftState :=
  inps.foldl (fun st i => (scf_diagonalize_step i st).1) s

theorem scf_diagonalize_step_latched (inp : DiagInput) (t : LshiftState)
    (ht : t.lshift_reset = true) : (scf_diagonalize_step inp t).1 = t := by
  simp [scf_diagonalize_step, ht]

theorem scf_run_latched (rest : List DiagInput) (t : LshiftState)
    (ht : t.lshift_reset = true) : scf_run rest t = t := by
  induction rest with
  | nil => rfl
  | cons a l ih =>
    show scf_run l (scf_diagonalize_step a t).1 = t
    rw [scf_diagonalize_step_latched a t ht]
    exact ih

/-- C1: in a run without a user-requested positive level shift, once
scf_diagonalize observes a gap below 0.01 Hartree the latch fires: the state
becomes lshift = 0.5 with lshift_reset set; every later call leaves a latched
state untouched (the latch condition is no longer evaluated), so the shift
stays 0.5 for the remainder of the run. -/
theorem lshift_latch (inp : DiagInput) (s : LshiftState)
    (hreset : s.lshift_reset = false)
    (huser : inp.userLshiftPos = false)
    (hgap : hl_gap_channels inp s - s.lshift < 1 / 100) :
    (scf_diagonalize_step inp s).1 = ⟨1 / 2, true⟩ ∧
    (∀ (inp2 : DiagInput) (t : LshiftState), t.lshift_reset = true →
      (scf_diagonalize_step inp2 t).1 = t) ∧
    (∀ rest : List DiagInput, scf_run rest (scf_diagonalize_step inp s).1 = ⟨1 / 2, true⟩) := by
  have hfire : (scf_diagonalize_step inp s).1 = ⟨1 / 2, true⟩ := by
    rw [scf_diagonalize_step]
    rw [if_pos ⟨hreset, hgap, huser⟩]
  refine ⟨hfire, scf_diagonalize_step_latched, ?_⟩
  intro rest
  rw [hfire, scf_run_latched rest ⟨1 / 2, true⟩ rfl]

/-- Concrete scf_diagonalize input used in witnesses: restricted reference,
no user shift, all eigenvalues zero (gap 0, below the 0.01 threshold). -/
def diagInputZero : DiagInput := ⟨false, false, fun _ => 0, fun _ => 0, 1, 1⟩

/-- Witness for C1: starting from an unlatched state with shift 0 and a run
whose first diagonalization sees a zero gap, the latch fires and one more
iteration leaves the latched state unchanged. -/
theorem lshift_latch_witness :
    (⟨0, false⟩ : LshiftState).lshift_reset = false ∧
      diagInputZero.userLshiftPos = false ∧
      hl_gap_channels diagInputZero ⟨0, false⟩ - (⟨0, false⟩ : LshiftState).lshift < 1 / 100 ∧
      (scf_diagonalize_step diagInputZero ⟨0, false⟩).1 = ⟨1 / 2, true⟩ ∧
      scf_run [diagInputZero] (scf_diagonalize_step diagInputZero ⟨0, false⟩).1 =
        ⟨1 / 2, true⟩ := by
  have hgap : hl_gap_channels diagInputZero ⟨0, false⟩ - (⟨0, false⟩ : LshiftState).lshift <
      1 / 100 := by
    norm_num [hl_gap_channels, diagInputZero]
  have h := lshift_latch diagInputZero ⟨0, false⟩ rfl rfl hgap
  exact ⟨rfl, rfl, hgap, h.1, h.2.2 [diagInputZero]⟩

/-- Concrete scf_diagonalize input used for the C6 counterexample: restricted
reference, alpha eigenvalues eps[n] = n, one occupied alpha orbital, so the
per-channel HOMO-LUMO formula gives 1. -/
def diagInputRamp : DiagInput := ⟨false, false, fun n => (n : ℚ), fun _ => 0, 1, 1⟩

/-- C6 counterexample: in a call made after the latch has fired
(lshift_reset set, lshift 0.5), scf_diagonalize does not compute the
HOMO-LUMO gap from the eigenvalues: the per-channel formula gives 1 but the
code's gap value is 0 (and the value after shift subtraction is -0.5). -/
theorem hl_gap_formula_counterexample :
    hl_gap_channels diagInputRamp ⟨1 / 2, true⟩ ≠
        diagInputRamp.epsA diagInputRamp.nA - diagInputRamp.epsA (diagInputRamp.nA - 1) ∧
      hl_gap_channels diagInputRamp ⟨1 / 2, true⟩ = 0 ∧
      (scf_diagonalize_step diagInputRamp ⟨1 / 2, true⟩).2 = -(1 / 2) := by
  refine ⟨?_, ?_, ?_⟩ <;> norm_num [hl_gap_channels, scf_diagonalize_step, diagInputRamp]

/-- C6 amended: while the latch has not fired, scf_diagonalize computes the
gap per spin channel as eps[n_occ] - eps[n_occ - 1] and, for unrestricted
references, reports the minimum of the alpha and beta channel gaps; once the
latch has fired the gap is no longer recomputed (it is held at 0 before the
shift subtraction). -/
theorem hl_gap_formula (inp : DiagInput) (s : LshiftState) :
    (s.lshift_reset = false →
      hl_gap_channels inp s =
        if inp.isUhf = true then
          min (inp.epsA inp.nA - inp.epsA (inp.nA - 1))
            (inp.epsB inp.nB - inp.epsB (inp.nB - 1))
        else inp.epsA inp.nA - inp.epsA (inp.nA - 1)) ∧
    (s.lshift_reset = true → hl_gap_channels inp s = 0) := by
  constructor
  · intro h
    by_cases hu : inp.isUhf = true <;> simp [hl_gap_channels, h, hu]
  · intro h
    simp [hl_gap_channels, h]

/-- Witness for C6: the amended theorem applied before and after the latch. -/
theorem hl_gap_formula_witness :
    hl_gap_channels diagInputRamp ⟨0, false⟩ =
        diagInputRamp.epsA diagInputRamp.nA - diagInputRamp.epsA (diagInputRamp.nA - 1) ∧
      hl_gap_channels diagInputRamp ⟨1 / 2, true⟩ = 0 := by
  refine ⟨?_, (hl_gap_formula diagInputRamp ⟨1 / 2, true⟩).2 rfl⟩
  have h := (hl_gap_formula diagInputRamp ⟨0, false⟩).1 rfl
  simpa [diagInputRamp] using h

/- ===================== C2: basis tiling =====================
   system_data.hpp lines 342-372 (SCFCompute::compute_AO_tiles). -/

/-- The accumulation loop of compute_AO_tiles (system_data.hpp lines 355-365):
walking the shells from index s with accumulator est, a tile is closed
whenever the running size reaches the target tile size; returns the list of
(boundary shell index, tile size) pairs together with the leftover
accumulator value. -/
def tilesGo (tsize : ℕ) : List ℕ → ℕ → ℕ → List (ℕ × ℕ) × ℕ
  | [], _, est => ([], est)
  | sz :: rest, s, est =>
    let est' := est + sz
    if tsize ≤ est' then
      let r := tilesGo tsize rest (s + 1) 0
      ((s, est') :: r.1, r.2)
    else tilesGo tsize rest (s + 1) est'

/-- Model of SCFCompute::compute_AO_tiles (system_data.hpp lines 342-372):
a basis is its list of shell sizes; the result is the pair
(shell_tile_map, AO_opttiles), with the trailing partial tile flushed
(boundary = last shell index) when the accumulator is nonzero at the end. -/
def compute_AO_tiles (sizes : List ℕ) (tsize : ℕ) : List ℕ × List ℕ :=
  let r := tilesGo tsize sizes 0 0
  if 0 < r.2 then
    (r.1.map Prod.fst ++ [sizes.length - 1], r.1.map Prod.snd ++ [r.2])
  else (r.1.map Prod.fst, r.1.map Prod.snd)

theorem tilesGo_sum (t : ℕ) :
    ∀ (l : List ℕ) (s est : ℕ),
      ((tilesGo t l s est).1.map Prod.snd).sum + (tilesGo t l s est).2 = est + l.sum := by
  intro l
  induction l with
  | nil => intro s est; simp [tilesGo]
  | cons sz rest ih =>
    intro s est
    by_cases h : t ≤ est + sz
    · have hrec := ih (s + 1) 0
      simp only [tilesGo, if_pos h, List.map_cons, List.sum_cons]
      omega
    · have hrec := ih (s + 1) (est + sz)
      simp only [tilesGo, if_neg h, List.sum_cons]
      omega

theorem tilesGo_bounds (t : ℕ) :
    ∀ (l : List ℕ) (s est : ℕ), ∀ p ∈ (tilesGo t l s est).1,
      s ≤ p.1 ∧ p.1 < s + l.length := by
  intro l
  induction l with
  | nil => intro s est p hp; simp [tilesGo] at hp
  | cons sz rest ih =>
    intro s est p hp
    by_cases h : t ≤ est + sz
    · simp only [tilesGo, if_pos h, List.mem_cons] at hp
      rcases hp with hp | hp
      · subst hp
        exact ⟨le_rfl, by simp only [List.length_cons]; omega⟩
      · have := ih (s + 1) 0 p hp
        simp only [List.length_cons]
        omega
    · simp only [tilesGo, if_neg h] at hp
      have := ih (s + 1) (est + sz) p hp
      simp only [List.length_cons]
      omega

theorem tilesGo_pairwise (t : ℕ) :
    ∀ (l : List ℕ) (s est : ℕ),
      ((tilesGo t l s est).1.map Prod.fst).Pairwise (· < ·) := by
  intro l
  induction l with
  | nil => intro s est; simp [tilesGo]
  | cons sz rest ih =>
    intro s est
    by_cases h : t ≤ est + sz
    · simp only [tilesGo, if_pos h, List.map_cons, List.pairwise_cons]
      refine ⟨?_, ih (s + 1) 0⟩
      intro b hb
      rcases List.mem_map.mp hb with ⟨p, hp, rfl⟩
      have := tilesGo_bounds t rest (s + 1) 0 p hp
      omega
    · simp only [tilesGo, if_neg h]
      exact ih (s + 1) (est + sz)

theorem tilesGo_leftover_pos (t : ℕ) :
    ∀ (l : List ℕ) (s est : ℕ), 0 < (tilesGo t l s est).2 →
      ∀ p ∈ (tilesGo t l s est).1, p.1 < s + l.length - 1 := by
  intro l
  induction l with
  | nil => intro s est _ p hp; simp [tilesGo] at hp
  | cons sz rest ih =>
    intro s est hpos p hp
    by_cases h : t ≤ est + sz
    · simp only [tilesGo, if_pos h] at hpos hp
      have hrest : rest ≠ [] := by
        rintro rfl
        simp [tilesGo] at hpos
      have hlen : 1 ≤ rest.length := List.length_pos.mpr hrest
      rcases List.mem_cons.mp hp with hp | hp
      · subst hp; simp only [List.length_cons]; omega
      · have := ih (s + 1) 0 hpos p hp
        simp only [List.length_cons]
        omega
    · simp only [tilesGo, if_neg h] at hpos hp
      have := ih (s + 1) (est + sz) hpos p hp
      simp only [List.length_cons]
      omega

theorem tilesGo_leftover_zero (t : ℕ) :
    ∀ (l : List ℕ) (s est : ℕ), l ≠ [] → (∀ x ∈ l, 0 < x) →
      (tilesGo t l s est).2 = 0 →
      ((tilesGo t l s est).1.map Prod.fst).getLast? = some (s + l.length - 1) := by
  intro l
  induction l with
  | nil => intro s est hne; exact absurd rfl hne
  | cons sz rest ih =>
    intro s est _ hpos h0
    by_cases h : t ≤ est + sz
    · simp only [tilesGo, if_pos h] at h0 ⊢
      rcases eq_or_ne rest [] with hrest | hrest
      · subst hrest
        simp [tilesGo]
      · have hlast := ih (s + 1) 0 hrest (fun x hx => hpos x (List.mem_cons_of_mem _ hx)) h0
        have hne2 : ((tilesGo t rest (s + 1) 0).1.map Prod.fst) ≠ [] := by
          intro hnil
          rw [hnil] at hlast
          simp at hlast
        rw [List.map_cons,
          show ((s, est + sz).1 :: List.map Prod.fst (tilesGo t rest (s + 1) 0).1) =
            [(s, est + sz).1] ++ List.map Prod.fst (tilesGo t rest (s + 1) 0).1 from rfl,
          List.getLast?_append_of_ne_nil _ hne2, hlast]
        congr 1
        simp only [List.length_cons]
        have : 1 ≤ rest.length := List.length_pos.mpr hrest
        omega
    · simp only [tilesGo, if_neg h] at h0 ⊢
      rcases eq_or_ne rest [] with hrest | hrest
      · subst hrest
        simp only [tilesGo] at h0
        have : 0 < sz := hpos sz (List.mem_cons_self _ _)
        omega
      · have hlast := ih (s + 1) (est + sz) hrest
          (fun x hx => hpos x (List.mem_cons_of_mem _ hx)) h0
        rw [hlast]
        congr 1
        simp only [List.length_cons]
        have : 1 ≤ rest.length := List.length_pos.mpr hrest
        omega

/-- Shell j lies in tile i of the boundary list stm when it is at most the
tile's closing boundary and, for i > 0, past the previous tile's closing
boundary. -/
def inTile (stm : List ℕ) (i j : ℕ) : Prop :=
  (i = 0 ∨ stm.getD (i - 1) 0 < j) ∧ j ≤ stm.getD i 0

theorem getD_mono_of_pairwise_lt {l : List ℕ} (h : l.Pairwise (· < ·))
    {a b : ℕ} (hab : a ≤ b) (hb : b < l.length) : l.getD a 0 ≤ l.getD b 0 := by
  rcases eq_or_lt_of_le hab with rfl | hlt
  · exact le_rfl
  · have ha : a < l.length := lt_trans hlt hb
    rw [List.getD_eq_getElem l 0 ha, List.getD_eq_getElem l 0 hb]
    have := List.pairwise_iff_get.mp h ⟨a, ha⟩ ⟨b, hb⟩ hlt
    simpa [List.get_eq_getElem] using le_of_lt this

theorem strict_sorted_unique_tile {l : List ℕ} (hl : l.Pairwise (· < ·))
    {N : ℕ} (hlast : l.getLast? = some (N - 1)) {j : ℕ} (hj : j < N) :
    ∃! i, i < l.length ∧ inTile l i j := by
  have hne : l ≠ [] := by rintro rfl; simp at hlast
  have hlen : 0 < l.length := List.length_pos.mpr hne
  have hlastD : l.getD (l.length - 1) 0 = N - 1 := by
    rw [List.getLast?_eq_getLast_of_ne_nil hne] at hlast
    have h2 : l.getLast hne = N - 1 := Option.some_injective _ hlast
    rw [List.getD_eq_getElem l 0 (by omega), ← h2, List.getLast_eq_getElem]
  have hP : ∃ i, i < l.length ∧ j ≤ l.getD i 0 := by
    refine ⟨l.length - 1, by omega, ?_⟩
    rw [hlastD]
    omega
  have hspec := Nat.find_spec hP
  refine ⟨Nat.find hP, ⟨hspec.1, ?_, hspec.2⟩, ?_⟩
  · rcases Nat.eq_zero_or_pos (Nat.find hP) with h0 | h0
    · exact Or.inl h0
    · refine Or.inr ?_
      have hmin := Nat.find_min hP (show Nat.find hP - 1 < Nat.find hP by omega)
      by_contra hle
      exact hmin ⟨by omega, not_lt.mp hle⟩
  · intro y hy
    obtain ⟨hylen, hyl, hyr⟩ := hy
    have h1 : Nat.find hP ≤ y := Nat.find_min' hP ⟨hylen, hyr⟩
    rcases eq_or_lt_of_le h1 with heq | hlt
    · exact heq.symm
    · exfalso
      rcases hyl with rfl | hprev
      · omega
      · have hmono := getD_mono_of_pairwise_lt hl
          (show Nat.find hP ≤ y - 1 by omega) (show y - 1 < l.length by omega)
        have := hspec.2
        omega

/-- C2: for every basis (non-empty list of positive shell sizes) and every
positive target tile size, compute_AO_tiles returns tile sizes summing to the
total basis size, a strictly increasing boundary list of the same length
whose last entry is the last shell index (trailing partial tile flushed), and
every shell belongs to exactly one tile. -/
theorem compute_AO_tiles_spec (sizes : List ℕ) (tsize : ℕ)
    (hne : sizes ≠ []) (_ht : 0 < tsize) (hpos : ∀ x ∈ sizes, 0 < x) :
    (compute_AO_tiles sizes tsize).2.sum = sizes.sum ∧
    (compute_AO_tiles sizes tsize).1.Pairwise (· < ·) ∧
    (compute_AO_tiles sizes tsize).1.length = (compute_AO_tiles sizes tsize).2.length ∧
    (compute_AO_tiles sizes tsize).1.getLast? = some (sizes.length - 1) ∧
    ∀ j < sizes.length,
      ∃! i, i < (compute_AO_tiles sizes tsize).1.length ∧
        inTile (compute_AO_tiles sizes tsize).1 i j := by
  have hsum := tilesGo_sum tsize sizes 0 0
  have hpair := tilesGo_pairwise tsize sizes 0 0
  by_cases h2 : 0 < (tilesGo tsize sizes 0 0).2
  · have hdef : compute_AO_tiles sizes tsize =
        ((tilesGo tsize sizes 0 0).1.map Prod.fst ++ [sizes.length - 1],
          (tilesGo tsize sizes 0 0).1.map Prod.snd ++ [(tilesGo tsize sizes 0 0).2]) := by
      rw [compute_AO_tiles, if_pos h2]
    rw [hdef]
    have hlt := tilesGo_leftover_pos tsize sizes 0 0 h2
    have hpair2 :
        ((tilesGo tsize sizes 0 0).1.map Prod.fst ++ [sizes.length - 1]).Pairwise (· < ·) := by
      rw [List.pairwise_append]
      refine ⟨hpair, List.pairwise_singleton _ _, ?_⟩
      intro a ha b hb
      rw [List.mem_singleton] at hb
      subst hb
      rcases List.mem_map.mp ha with ⟨p, hp, rfl⟩
      have := hlt p hp
      omega
    have hlast2 :
        ((tilesGo tsize sizes 0 0).1.map Prod.fst ++ [sizes.length - 1]).getLast? =
          some (sizes.length - 1) := List.getLast?_concat _
    refine ⟨?_, hpair2, ?_, hlast2, ?_⟩
    · have hs : ((tilesGo tsize sizes 0 0).1.map Prod.snd ++
          [(tilesGo tsize sizes 0 0).2]).sum =
          ((tilesGo tsize sizes 0 0).1.map Prod.snd).sum + (tilesGo tsize sizes 0 0).2 := by
        simp
      rw [hs]
      omega
    · simp
    · intro j hj
      exact strict_sorted_unique_tile hpair2 hlast2 hj
  · have h0 : (tilesGo tsize sizes 0 0).2 = 0 := by omega
    have hdef : compute_AO_tiles sizes tsize =
        ((tilesGo tsize sizes 0 0).1.map Prod.fst,
          (tilesGo tsize sizes 0 0).1.map Prod.snd) := by
      rw [compute_AO_tiles, if_neg h2]
    rw [hdef]
    have hlast2 := tilesGo_leftover_zero tsize sizes 0 0 hne hpos h0
    rw [Nat.zero_add] at hlast2
    refine ⟨?_, hpair, ?_, hlast2, ?_⟩
    · show ((tilesGo tsize sizes 0 0).1.map Prod.snd).sum = sizes.sum
      omega
    · simp
    · intro j hj
      exact strict_sorted_unique_tile hpair hlast2 hj

/-- Witness for C2: the theorem applied to the shell-size list [3, 1, 2] with
target tile size 3, which tiles as boundaries [0, 2] and tile sizes [3, 3]. -/
theorem compute_AO_tiles_spec_witness :
    (compute_AO_tiles [3, 1, 2] 3).2.sum = ([3, 1, 2] : List ℕ).sum ∧
      (compute_AO_tiles [3, 1, 2] 3).1.getLast? = some 2 :=
  ⟨(compute_AO_tiles_spec [3, 1, 2] 3 (by decide) (by decide) (by decide)).1,
    (compute_AO_tiles_spec [3, 1, 2] 3 (by decide) (by decide) (by decide)).2.2.2.1⟩

/- ===================== C4: shell-pair screening =====================
   system_data.hpp lines 534-609 (SCFCompute::compute_shellpairs). -/

/-- Significance test for a shell pair (system_data.hpp lines 566-574): a
pair on the same atomic center (equal shell origins O) is always
significant; otherwise the Frobenius norm of the overlap block, supplied by
the libint2 engine and modelled by the abstract function ovl, must reach the
threshold. Shell origins are modelled by their coordinate triples. -/
def shellpair_significant (c1 c2 : ℕ → ℚ × ℚ × ℚ) (ovl : ℕ → ℕ → ℚ) (τ : ℚ)
    (s1 s2 : ℕ) : Bool :=
  decide (c1 s1 = c2 s2) || decide (τ ≤ ovl s1 s2)

/-- Model of SCFCompute::compute_shellpairs (system_data.hpp lines 534-609)
restricted to one row s1 of the shell-pair list: the loop visits s2 from 0 up
to s1 inclusive when the two basis sets are the same object (bs1_equiv_bs2),
else up to nsh2 - 1, keeping the significant partners; the later std::sort is
a no-op on this already increasing list. -/
def compute_shellpairs (c1 c2 : ℕ → ℚ × ℚ × ℚ) (ovl : ℕ → ℕ → ℚ) (τ : ℚ)
    (same : Bool) (nsh2 : ℕ) (s1 : ℕ) : List ℕ :=
  (List.range (if same = true then s1 + 1 else nsh2)).filter
    (shellpair_significant c1 c2 ovl τ s1)

/-- C4: each row of the shell-pair list is sorted strictly increasing, its
partners are restricted to s2 ≤ s1 exactly when the two basis sets are the
same object (unrestricted otherwise), and a pair appears iff the shells share
a center or the overlap-block norm reaches the threshold. -/
theorem compute_shellpairs_spec (c1 c2 : ℕ → ℚ × ℚ × ℚ) (ovl : ℕ → ℕ → ℚ) (τ : ℚ)
    (same : Bool) (nsh2 : ℕ) (s1 s2 : ℕ) :
    (compute_shellpairs c1 c2 ovl τ same nsh2 s1).Pairwise (· < ·) ∧
    (s2 ∈ compute_shellpairs c1 c2 ovl τ same nsh2 s1 ↔
      s2 < (if same = true then s1 + 1 else nsh2) ∧
        (c1 s1 = c2 s2 ∨ τ ≤ ovl s1 s2)) := by
  constructor
  · exact (List.pairwise_lt_range _).filter _
  · rw [compute_shellpairs, List.mem_filter, List.mem_range]
    simp only [shellpair_significant, Bool.or_eq_true, decide_eq_true_eq]

/- ===================== C5 and C10: Schwarz bound matrix =====================
   system_data.hpp lines 611-693 (SCFCompute::compute_schwarz_ints). -/

/-- Square of the Frobenius norm of the (s1 s2 | s1 s2) integral block: the
block is the n1*n2 by n1*n2 matrix with entries eri f1 f2 f3 f4 for basis
functions f1, f3 of shell s1 (set A) and f2, f4 of shell s2 (set B); eri is
the abstract two-electron integral evaluator. -/
def schwarz_block_frob_sq (eri : ℕ → ℕ → ℕ → ℕ → ℝ) (A B : Finset ℕ) : ℝ :=
  ∑ f1 ∈ A, ∑ f2 ∈ B, ∑ f3 ∈ A, ∑ f4 ∈ B, (eri f1 f2 f3 f4) ^ 2

/-- Infinity norm of the same block (Eigen lpNorm Infinity = maximum absolute
entry), as a nonnegative real; 0 for an empty block. -/
def schwarz_block_max (eri : ℕ → ℕ → ℕ → ℕ → ℝ) (A B : Finset ℕ) : NNReal :=
  ((A ×ˢ B) ×ˢ (A ×ˢ B)).sup fun x => Real.nnabs (eri x.1.1 x.1.2 x.2.1 x.2.2)

/-- One entry of the Schwarz bound matrix (system_data.hpp lines 663-677):
K(s1, s2) = sqrt(norm2) with norm2 either the Frobenius norm (Eigen .norm(),
the square root of the sum of squares) or the infinity norm of the
(s1 s2 | s1 s2) block; bf s is the basis-function index set of shell s. The
tiled loops visit every ordered shell pair, so the returned matrix carries
this value at every position. -/
noncomputable def schwarz_entry (use_2norm : Bool) (eri : ℕ → ℕ → ℕ → ℕ → ℝ)
    (bf : ℕ → Finset ℕ) (s1 s2 : ℕ) : ℝ :=
  Real.sqrt
    (if use_2norm = true then Real.sqrt (schwarz_block_frob_sq eri (bf s1) (bf s2))
     else (schwarz_block_max eri (bf s1) (bf s2) : ℝ))

theorem schwarz_block_frob_sq_symm (eri : ℕ → ℕ → ℕ → ℕ → ℝ)
    (hsym : ∀ p q r t, eri p q r t = eri q p t r) (A B : Finset ℕ) :
    schwarz_block_frob_sq eri A B = schwarz_block_frob_sq eri B A := by
  unfold schwarz_block_frob_sq
  calc ∑ f1 ∈ A, ∑ f2 ∈ B, ∑ f3 ∈ A, ∑ f4 ∈ B, (eri f1 f2 f3 f4) ^ 2
      = ∑ f2 ∈ B, ∑ f1 ∈ A, ∑ f3 ∈ A, ∑ f4 ∈ B, (eri f1 f2 f3 f4) ^ 2 := Finset.sum_comm
    _ = ∑ f2 ∈ B, ∑ f1 ∈ A, ∑ f4 ∈ B, ∑ f3 ∈ A, (eri f1 f2 f3 f4) ^ 2 := by
        refine Finset.sum_congr rfl fun f2 _ => Finset.sum_congr rfl fun f1 _ => ?_
        exact Finset.sum_comm
    _ = ∑ f2 ∈ B, ∑ f1 ∈ A, ∑ f4 ∈ B, ∑ f3 ∈ A, (eri f2 f1 f4 f3) ^ 2 := by
        refine Finset.sum_congr rfl fun f2 _ => Finset.sum_congr rfl fun f1 _ =>
          Finset.sum_congr rfl fun f4 _ => Finset.sum_congr rfl fun f3 _ => ?_
        rw [hsym]

theorem schwarz_block_max_symm (eri : ℕ → ℕ → ℕ → ℕ → ℝ)
    (hsym : ∀ p q r t, eri p q r t = eri q p t r) (A B : Finset ℕ) :
    schwarz_block_max eri A B = schwarz_block_max eri B A := by
  have key : ∀ (S T : Finset ℕ), schwarz_block_max eri S T ≤ schwarz_block_max eri T S := by
    intro S T
    apply Finset.sup_le
    intro x hx
    simp only [Finset.mem_product] at hx
    have hmem : ((x.1.2, x.1.1), (x.2.2, x.2.1)) ∈ (T ×ˢ S) ×ˢ (T ×ˢ S) := by
      simp only [Finset.mem_product]
      exact ⟨⟨hx.1.2, hx.1.1⟩, hx.2.2, hx.2.1⟩
    refine le_trans (le_of_eq ?_) (Finset.le_sup hmem)
    rw [hsym]
  exact le_antisymm (key A B) (key B A)

/-- C5: the Schwarz bound matrix is symmetric, K(s1, s2) = K(s2, s1) for all
shell indices and for either norm choice, given the permutational symmetry
(pq|rt) = (qp|tr) of the real two-electron integrals supplied by the
engine. -/
theorem schwarz_ints_symmetric (use_2norm : Bool) (eri : ℕ → ℕ → ℕ → ℕ → ℝ)
    (bf : ℕ → Finset ℕ)
    (hsym : ∀ p q r t, eri p q r t = eri q p t r) :
    ∀ s1 s2, schwarz_entry use_2norm eri bf s1 s2 = schwarz_entry use_2norm eri bf s2 s1 := by
  intro s1 s2
  unfold schwarz_entry
  rw [schwarz_block_frob_sq_symm eri hsym (bf s1) (bf s2),
    schwarz_block_max_symm eri hsym (bf s1) (bf s2)]

/-- Constant two-electron integral function used in the C5 witness. -/
def eriOne : ℕ → ℕ → ℕ → ℕ → ℝ := fun _ _ _ _ => 1

/-- Singleton basis-function map used in the C5 witness. -/
def bfSingle : ℕ → Finset ℕ := fun _ => {0}

/-- Witness for C5: the symmetry theorem applied to a concrete symmetric
integral function at shell indices 0 and 1. -/
theorem schwarz_ints_symmetric_witness :
    (∀ p q r t, eriOne p q r t = eriOne q p t r) ∧
      schwarz_entry true eriOne bfSingle 0 1 = schwarz_entry true eriOne bfSingle 1 0 :=
  ⟨fun _ _ _ _ => rfl,
    schwarz_ints_symmetric true eriOne bfSingle (fun _ _ _ _ => rfl) 0 1⟩

/-- Model of the entry guard of compute_schwarz_ints (system_data.hpp lines
622-628): the second basis defaults to the first when empty (none); then
EXPECTS(nsh1 == nsh2) aborts — modelled as none — unless the two shell counts
agree; on success the dimensions and entries of the Schwarz matrix are
returned. -/
noncomputable def compute_schwarz_ints (use_2norm : Bool) (eri : ℕ → ℕ → ℕ → ℕ → ℝ)
    (bf : ℕ → Finset ℕ) (nsh1 : ℕ) (nsh2_opt : Option ℕ) :
    Option (ℕ × ℕ × (ℕ → ℕ → ℝ)) :=
  let nsh2 := nsh2_opt.getD nsh1
  if nsh1 = nsh2 then some (nsh1, nsh2, fun s1 s2 => schwarz_entry use_2norm eri bf s1 s2)
  else none

/-- C10: with a second, distinct basis supplied, compute_schwarz_ints aborts
via EXPECTS(nsh1 == nsh2) exactly when the shell counts differ; whenever a
matrix is produced its two dimensions are equal (never non-square); with no
second basis the guard always passes. -/
theorem compute_schwarz_ints_guard (use_2norm : Bool) (eri : ℕ → ℕ → ℕ → ℕ → ℝ)
    (bf : ℕ → Finset ℕ) (nsh1 : ℕ) :
    (∀ nsh2, compute_schwarz_ints use_2norm eri bf nsh1 (some nsh2) = none ↔ nsh1 ≠ nsh2) ∧
    (∀ (nsh2_opt : Option ℕ) (m : ℕ × ℕ × (ℕ → ℕ → ℝ)),
      compute_schwarz_ints use_2norm eri bf nsh1 nsh2_opt = some m → m.1 = m.2.1) ∧
    compute_schwarz_ints use_2norm eri bf nsh1 none ≠ none := by
  refine ⟨?_, ?_, ?_⟩
  · intro nsh2
    rw [compute_schwarz_ints]
    by_cases heq : nsh1 = (some nsh2).getD nsh1
    · rw [if_pos heq]
      simp only [Option.getD_some] at heq
      constructor
      · intro h
        exact absurd h (by simp)
      · intro hne
        exact absurd heq hne
    · rw [if_neg heq]
      simp only [Option.getD_some] at heq
      constructor
      · intro _
        exact heq
      · intro _
        rfl
  · intro nsh2_opt m h
    rw [compute_schwarz_ints] at h
    by_cases heq : nsh1 = nsh2_opt.getD nsh1
    · rw [if_pos heq] at h
      have hm := Option.some_injective _ h
      rw [← hm]
      exact heq
    · rw [if_neg heq] at h
      exact absurd h (by simp)
  · rw [compute_schwarz_ints]
    simp

/- ===================== C7: atomic SAD fixed-point loop =====================
   scf_guess.cpp lines 1224-1535 (the do-while loop in compute_sad_guess). -/

/-- Damped density trace of the atomic SCF loop. reform models one Fock
build / diagonalize / density-reform pass (scf_guess.cpp lines 1247-1523,
external linear algebra abstracted), producing the new density from the
previous one; the loop then damps it by 0.3 toward the previous density
(lines 1525-1528: D = D_new - 0.3 * (D_new - D_last)). Densities are indexed
families of rationals; sadD k is the damped density after k iterations. -/
def sadD (reform : ℕ → (ℕ → ℚ) → (ℕ → ℚ)) (D0 : ℕ → ℚ) : ℕ → ℕ → ℚ
  | 0 => D0
  | k + 1 =>
    let Dlast := sadD reform D0 k
    let Dnew := reform k Dlast
    fun i => Dnew i - 3 / 10 * (Dnew i - Dlast i)

/-- The density-change value after each iteration (scf_guess.cpp line 1529):
the norm — Eigen .norm() combined over the two spin channels by max,
abstracted as normv — of the undamped change D_new - D_last. The value at 0
is the initialization rmsd_a_atom = 1.0, never consulted by the do-while. -/
def sadRmsd (reform : ℕ → (ℕ → ℚ) → (ℕ → ℚ)) (normv : (ℕ → ℚ) → ℚ)
    (D0 : ℕ → ℚ) : ℕ → ℚ
  | 0 => 1
  | k + 1 =>
    normv (fun i => reform k (sadD reform D0 k) i - sadD reform D0 k i)

/-- Exit condition of the do-while loop after its k-th body execution
(scf_guess.cpp lines 1533-1535): the loop leaves after at least one pass,
either because the counter exceeded 200 (the break) or because
fabs(rmsd) <= 1e-5 (the while condition failing). -/
def sadExitCond (reform : ℕ → (ℕ → ℚ) → (ℕ → ℚ)) (normv : (ℕ → ℚ) → ℚ)
    (D0 : ℕ → ℚ) (k : ℕ) : Prop :=
  1 ≤ k ∧ (200 < k ∨ |sadRmsd reform normv D0 k| ≤ 1 / 100000)

instance sadExitCond_decidable (reform : ℕ → (ℕ → ℚ) → (ℕ → ℚ))
    (normv : (ℕ → ℚ) → ℚ) (D0 : ℕ → ℚ) :
    DecidablePred (sadExitCond reform normv D0) := fun k => by
  unfold sadExitCond
  infer_instance

theorem sadExit_exists (reform : ℕ → (ℕ → ℚ) → (ℕ → ℚ)) (normv : (ℕ → ℚ) → ℚ)
    (D0 : ℕ → ℚ) : ∃ k, sadExitCond reform normv D0 k :=
  ⟨201, by omega, Or.inl (by omega)⟩

/-- The number of body executions the atomic SAD loop performs: the first
iteration count at which the do-while exits. -/
def sadIters (reform : ℕ → (ℕ → ℚ) → (ℕ → ℚ)) (normv : (ℕ → ℚ) → ℚ)
    (D0 : ℕ → ℚ) : ℕ :=
  Nat.find (sadExit_exists reform normv D0)

/-- C7 (amended): the atomic SAD loop always terminates, after at most 201
body executions; every completed non-final iteration had density change
above 1e-5 and counter at most 200; if the loop stops at or before iteration
200 the density change has reached 1e-5; and each iteration damps the new
density by 0.3 toward the previous one. No error is raised in any case. -/
theorem sad_loop_spec (reform : ℕ → (ℕ → ℚ) → (ℕ → ℚ)) (normv : (ℕ → ℚ) → ℚ)
    (D0 : ℕ → ℚ) (k : ℕ)
    (hk1 : 1 ≤ k) (hklt : k < sadIters reform normv D0) :
    sadIters reform normv D0 ≤ 201 ∧
    k ≤ 200 ∧ 1 / 100000 < |sadRmsd reform normv D0 k| ∧
    (sadIters reform normv D0 ≤ 200 →
      |sadRmsd reform normv D0 (sadIters reform normv D0)| ≤ 1 / 100000) ∧
    (∀ (m i : ℕ),
      sadD reform D0 (m + 1) i =
        7 / 10 * reform m (sadD reform D0 m) i + 3 / 10 * sadD reform D0 m i) := by
  have hle : sadIters reform normv D0 ≤ 201 :=
    Nat.find_le ⟨by omega, Or.inl (by omega)⟩
  have hnot := Nat.find_min (sadExit_exists reform normv D0) hklt
  simp only [sadExitCond, not_and, not_or, not_lt, not_le] at hnot
  obtain ⟨h200, hbig⟩ := hnot hk1
  have hspec : sadExitCond reform normv D0 (sadIters reform normv D0) :=
    Nat.find_spec (sadExit_exists reform normv D0)
  refine ⟨hle, h200, hbig, ?_, ?_⟩
  · intro hcap
    rcases hspec.2 with hgt | hsmall
    · omega
    · exact hsmall
  · intro m i
    simp only [sadD]
    ring

/-- Iteration map used in the C7 counterexample: every reform adds 1 to each
density entry, so the undamped change is always 1. -/
def sadReformInc : ℕ → (ℕ → ℚ) → (ℕ → ℚ) := fun _ D i => D i + 1

/-- Norm used in the C7 counterexample: absolute value of entry 0. -/
def sadNormHead : (ℕ → ℚ) → ℚ := fun v => |v 0|

/-- Zero initial density for the C7 counterexample. -/
def sadDZero : ℕ → ℚ := fun _ => 0

theorem sadRmsd_inc (k : ℕ) :
    sadRmsd sadReformInc sadNormHead sadDZero (k + 1) = 1 := by
  have h : sadRmsd sadReformInc sadNormHead sadDZero (k + 1) =
      |sadD sadReformInc sadDZero k 0 + 1 - sadD sadReformInc sadDZero k 0| := rfl
  rw [h, show sadD sadReformInc sadDZero k 0 + 1 - sadD sadReformInc sadDZero k 0 = (1 : ℚ)
    from by ring]
  norm_num

/-- C7 counterexample: with a density change that never converges, the
do-while performs 201 body executions — the break fires only when the
counter exceeds 200 — so the loop does not stop after 200 iterations as
claimed. -/
theorem sad_loop_cap_counterexample :
    sadIters sadReformInc sadNormHead sadDZero = 201 ∧
      200 < sadIters sadReformInc sadNormHead sadDZero := by
  have h : sadIters sadReformInc sadNormHead sadDZero = 201 := by
    rw [sadIters, Nat.find_eq_iff]
    refine ⟨⟨by omega, Or.inl (by omega)⟩, ?_⟩
    intro m hm
    rintro ⟨hm1, hcase⟩
    rcases hcase with h200 | hsmall
    · omega
    · obtain ⟨j, rfl⟩ : ∃ j, m = j + 1 := ⟨m - 1, by omega⟩
      rw [sadRmsd_inc j] at hsmall
      norm_num at hsmall
  exact ⟨h, by rw [h]; omega⟩

/-- Witness for C7: the amended theorem applied to the non-converging
iteration at k = 1. -/
theorem sad_loop_spec_witness :
    (1 : ℕ) ≤ 1 ∧ 1 < sadIters sadReformInc sadNormHead sadDZero ∧
      sadIters sadReformInc sadNormHead sadDZero ≤ 201 := by
  have hlt : 1 < sadIters sadReformInc sadNormHead sadDZero := by
    rw [sadIters, Nat.lt_find_iff]
    intro m hm
    rintro ⟨hm1, hcase⟩
    rcases hcase with h200 | hsmall
    · omega
    · obtain ⟨j, rfl⟩ : ∃ j, m = j + 1 := ⟨m - 1, by omega⟩
      rw [sadRmsd_inc j] at hsmall
      norm_num at hsmall
  exact ⟨le_rfl, hlt,
    (sad_loop_spec sadReformInc sadNormHead sadDZero 1 le_rfl hlt).1⟩
